import Mathlib

/-!
# Verification of the chat_me ingestion-and-retrieval pipeline

Shallow embedding of the core of the `chat_me` repository:

* `src/utils/vectorSearch.ts` — the in-memory vector index
  (`documentStore`, `addDocument`, `searchSimilarDocuments`, `chunkText`,
  `cosineSimilarity`, `getDocumentStore`, `clearDocumentStore`);
* `src/app/api/youtube-manual/route.ts` — the semantic chunker
  (`createSemanticChunks`, `getOverlapText`);
* `src/app/api/admin/documents/[id]/route.ts` — the delete endpoint;
* `src/app/api/youtube-whisper/route.ts` and the channel batch route —
  the audio-download/transcribe/cleanup control flow.

Modelling conventions:

* JavaScript strings are modelled as `List Char`; JavaScript numbers in
  embeddings as `ℚ` (exact arithmetic stands in for IEEE doubles; the one
  place where a float produces `NaN` — division by a zero magnitude
  product in `cosineSimilarity` — is modelled explicitly with `Option`).
* The mathematical cosine similarity is the real number
  `dot / (√‖a‖² · √‖b‖²)`; since the similarity values are only ever used
  to *order* records before being discarded, the executable search
  function orders records by the strictly-monotone rational key
  `a·|a|/X` (where the cosine is `a/√X`), and the bridge lemma
  `simKey_le_iff` proves this ordering agrees with the real cosine
  ordering whenever the magnitudes are nonzero.
* JavaScript's `Array.prototype.sort` is stable (ECMAScript 2019); it is
  modelled by `List.mergeSort`, which is stable in the same sense.
* The module-level mutable `documentStore` is modelled by explicit state
  passing: mutating operations take the store and return the new store.
* External capabilities (`createEmbedding`, audio download, Whisper
  transcription) are parameters of the functions that call them.
-/

/-! ## Vector arithmetic (`src/utils/vectorSearch.ts`, `cosineSimilarity`) -/

/-- `dotProduct a b` — `a.reduce((sum, val, i) => sum + val * b[i], 0)`.
For equal-length vectors (the only case the data model admits: the index
never mixes dimensionalities) this is the pairwise product sum. -/
def dotProduct (a b : List ℚ) : ℚ :=
  (List.zipWith (· * ·) a b).sum

/-- `magSq a` — the square of `Math.sqrt(a.reduce((sum, val) => sum + val * val, 0))`,
kept unrooted so that it stays rational. -/
def magSq (a : List ℚ) : ℚ :=
  (a.map (fun x => x * x)).sum

/-- The mathematical value computed by `cosineSimilarity(a, b)`:
`dotProduct / (magnitudeA * magnitudeB)` with real square roots. -/
noncomputable def cosineSimilarity (a b : List ℚ) : ℝ :=
  (dotProduct a b : ℝ) / (Real.sqrt (magSq a) * Real.sqrt (magSq b))

/-- `cosineSimilarity` as the float program computes it: when
`magnitudeA * magnitudeB` is `0` the division is `0 / 0`, which is `NaN`
in IEEE arithmetic (the numerator is forced to `0` because a
zero-magnitude rational vector is the zero vector).  `none` marks `NaN`;
otherwise the value is the real quotient. -/
noncomputable def cosineSimilarityF (a b : List ℚ) : Option ℝ :=
  if magSq a * magSq b = 0 then none else some (cosineSimilarity a b)

/-- Computable sort key for the similarity of `v` to the query `q`:
with `a = dotProduct q v` and `X = magSq q * magSq v`, the cosine is
`a / √X` and `simKey = a·|a| / X` is its image under the strictly
monotone map `t ↦ t·|t|`, so comparing keys compares cosines
(`simKey_le_iff`). -/
def simKey (q v : List ℚ) : ℚ :=
  let a := dotProduct q v
  let X := magSq q * magSq v
  if X = 0 then 0 else a * |a| / X

lemma magSq_nonneg (a : List ℚ) : 0 ≤ magSq a := by
  unfold magSq
  induction a with
  | nil => simp
  | cons x xs ih =>
    simp only [List.map_cons, List.sum_cons]
    nlinarith [mul_self_nonneg x]

lemma strictMono_mul_abs : StrictMono (fun t : ℝ => t * |t|) := by
  intro s t hst
  show s * |s| < t * |t|
  rcases le_or_lt 0 s with hs | hs
  · have ht : 0 < t := lt_of_le_of_lt hs hst
    rw [abs_of_nonneg hs, abs_of_pos ht]
    nlinarith
  · rcases le_or_lt 0 t with ht | ht
    · have h1 : s * |s| < 0 := by
        rw [abs_of_neg hs]; nlinarith
      have h2 : 0 ≤ t * |t| := by
        rw [abs_of_nonneg ht]; nlinarith
      linarith
    · rw [abs_of_neg hs, abs_of_neg ht]
      nlinarith

lemma mul_abs_div_eq (a : ℝ) {X : ℝ} (hX : 0 < X) :
    (a / Real.sqrt X) * |a / Real.sqrt X| = a * |a| / X := by
  have hs : 0 < Real.sqrt X := Real.sqrt_pos.mpr hX
  rw [abs_div, abs_of_pos hs]
  rw [div_mul_div_comm]
  rw [Real.mul_self_sqrt hX.le]

/-- Bridge: for positive magnitude products the rational keys order the
same way as the real cosines. -/
lemma key_le_iff {a b : ℚ} {X Y : ℚ} (hX : 0 < X) (hY : 0 < Y) :
    ((a : ℝ) / Real.sqrt ((X : ℚ) : ℝ) ≤ (b : ℝ) / Real.sqrt ((Y : ℚ) : ℝ)) ↔
      (a * |a| / X ≤ b * |b| / Y) := by
  have hXr : (0 : ℝ) < ((X : ℚ) : ℝ) := by exact_mod_cast hX
  have hYr : (0 : ℝ) < ((Y : ℚ) : ℝ) := by exact_mod_cast hY
  constructor
  · intro h
    have h2 := strictMono_mul_abs.le_iff_le.mpr h
    simp only [] at h2
    rw [mul_abs_div_eq a hXr, mul_abs_div_eq b hYr] at h2
    exact_mod_cast h2
  · intro h
    apply strictMono_mul_abs.le_iff_le.mp
    show (a : ℝ) / Real.sqrt ((X : ℚ) : ℝ) * |(a : ℝ) / Real.sqrt ((X : ℚ) : ℝ)|
        ≤ (b : ℝ) / Real.sqrt ((Y : ℚ) : ℝ) * |(b : ℝ) / Real.sqrt ((Y : ℚ) : ℝ)|
    rw [mul_abs_div_eq a hXr, mul_abs_div_eq b hYr]
    exact_mod_cast h

lemma cosineSimilarity_eq_div_sqrt (q v : List ℚ) :
    cosineSimilarity q v
      = (dotProduct q v : ℝ) / Real.sqrt ((magSq q * magSq v : ℚ) : ℝ) := by
  unfold cosineSimilarity
  rw [show ((magSq q * magSq v : ℚ) : ℝ) = ((magSq q : ℚ) : ℝ) * ((magSq v : ℚ) : ℝ) by
    push_cast
    ring]
  rw [Real.sqrt_mul (by exact_mod_cast magSq_nonneg q)]

/-- The computable comparison `simKey q v ≤ simKey q w` agrees with the
real cosine comparison whenever neither magnitude is zero. -/
lemma simKey_le_iff {q v w : List ℚ} (hq : magSq q ≠ 0)
    (hv : magSq v ≠ 0) (hw : magSq w ≠ 0) :
    (simKey q v ≤ simKey q w ↔ cosineSimilarity q v ≤ cosineSimilarity q w) := by
  have hqpos : 0 < magSq q := lt_of_le_of_ne (magSq_nonneg q) (Ne.symm hq)
  have hvpos : 0 < magSq v := lt_of_le_of_ne (magSq_nonneg v) (Ne.symm hv)
  have hwpos : 0 < magSq w := lt_of_le_of_ne (magSq_nonneg w) (Ne.symm hw)
  have hX : 0 < magSq q * magSq v := mul_pos hqpos hvpos
  have hY : 0 < magSq q * magSq w := mul_pos hqpos hwpos
  rw [cosineSimilarity_eq_div_sqrt, cosineSimilarity_eq_div_sqrt]
  unfold simKey
  simp only [hX.ne', hY.ne', if_neg, ite_false]
  exact (key_le_iff hX hY).symm

/-! ## Strings and chunking

JavaScript strings are `List Char`.  `trim` removes whitespace from both
ends; `splitTerm` is `text.split(/[.!?]+/)` (maximal nonempty runs of
`.`, `!`, `?` are separators; a leading/trailing separator contributes an
empty fragment, and splitting the empty string yields `[""]`). -/

/-- Whitespace as removed by `String.prototype.trim` (the code points that
occur in this code base). -/
def isWsChar (c : Char) : Bool :=
  c == ' ' || c == '\t' || c == '\n' || c == '\r' || c == '\x0b' || c == '\x0c'

/-- Terminal punctuation, the delimiter class of `/[.!?]+/`. -/
def isTermChar (c : Char) : Bool :=
  c == '.' || c == '!' || c == '?'

def trimLeft (l : List Char) : List Char := l.dropWhile isWsChar

def trimRight (l : List Char) : List Char := (l.reverse.dropWhile isWsChar).reverse

/-- `s.trim()`. -/
def trim (l : List Char) : List Char := trimLeft (trimRight l)

/-- Worker for `splitTerm`: `acc` is the current fragment (reversed),
`lastTerm` records whether the previous character belonged to a
separator run (so that a run is consumed as one separator). -/
def splitTermGo : List Char → List Char → Bool → List (List Char)
  | [], acc, _ => [acc.reverse]
  | c :: cs, acc, lastTerm =>
    if isTermChar c then
      if lastTerm then splitTermGo cs acc true
      else acc.reverse :: splitTermGo cs [] true
    else
      splitTermGo cs (c :: acc) false

/-- `text.split(/[.!?]+/)`. -/
def splitTerm (text : List Char) : List (List Char) :=
  splitTermGo text [] false

/-- The accumulation loop of `chunkText` (`src/utils/vectorSearch.ts`
lines 78–100), with the pushes of the shared `chunks` array turned into
the returned list: for each sentence, if
`currentChunk.length + sentence.length > maxLength` the trimmed current
chunk is pushed (when nonempty) and the buffer restarts as the bare
sentence; otherwise the sentence plus `'.'` is appended.  The final
nonempty trimmed buffer is flushed. -/
def chunkLoop (maxLen : Nat) : List (List Char) → List Char → List (List Char)
  | [], cc => if (trim cc).isEmpty then [] else [trim cc]
  | s :: rest, cc =>
    if maxLen < cc.length + s.length then
      if (trim cc).isEmpty then chunkLoop maxLen rest s
      else trim cc :: chunkLoop maxLen rest s
    else
      chunkLoop maxLen rest (cc ++ s ++ ['.'])

/-- `chunkText(text, maxLength)` from `src/utils/vectorSearch.ts`. -/
def chunkText (text : List Char) (maxLen : Nat) : List (List Char) :=
  chunkLoop maxLen (splitTerm text) []

/-- `overlap.lastIndexOf(' ')` as an `Option` (`none` for `-1`). -/
def lastSpaceIdx (l : List Char) : Option Nat :=
  match l.reverse.findIdx? (fun c => c == ' ') with
  | none => none
  | some j => some (l.length - 1 - j)

/-- `getOverlapText(text, overlapSize)` from
`src/app/api/youtube-manual/route.ts` lines 111–118: whole text when it
fits in the window, else the last `overlapSize` characters, cut after the
last space when that space sits at a positive index.  (Only ever invoked
with `overlapSize = 200`.) -/
def getOverlapText (text : List Char) (overlapSize : Nat) : List Char :=
  if text.length ≤ overlapSize then text
  else
    let overlap := text.drop (text.length - overlapSize)
    match lastSpaceIdx overlap with
    | some i => if 0 < i then overlap.drop (i + 1) else overlap
    | none => overlap

/-- The accumulation loop of `createSemanticChunks`
(`src/app/api/youtube-manual/route.ts` lines 86–106), parametrized by the
constants `maxChunkSize` and `overlap` that the source hardcodes to
`1000` and `200`. -/
def scChunkLoop (maxC ov : Nat) : List (List Char) → List Char → List (List Char)
  | [], cc => if (trim cc).isEmpty then [] else [trim cc]
  | s :: rest, cc =>
    let sws := if cc.isEmpty then trim s else ' ' :: trim s
    if maxC < cc.length + sws.length && !cc.isEmpty then
      trim cc :: scChunkLoop maxC ov rest (getOverlapText cc ov ++ sws)
    else
      scChunkLoop maxC ov rest (cc ++ sws)

/-- The chunk sequence of `createSemanticChunks` before the final
minimum-length filter: split into sentences, drop blank ones, accumulate
with overlap seeding. -/
def createSemanticChunksRaw (maxC ov : Nat) (text : List Char) : List (List Char) :=
  scChunkLoop maxC ov ((splitTerm text).filter (fun s => !(trim s).isEmpty)) []

/-- `createSemanticChunks` with explicit size parameters: the raw chunk
sequence, keeping only chunks longer than 50 characters. -/
def createSemanticChunksP (maxC ov : Nat) (text : List Char) : List (List Char) :=
  (createSemanticChunksRaw maxC ov text).filter (fun c => 50 < c.length)

/-- `createSemanticChunks(text)` with the source's constants
(`maxChunkSize = 1000`, `overlap = 200`). -/
def createSemanticChunks (text : List Char) : List (List Char) :=
  createSemanticChunksP 1000 200 text

/-- Rewrites `'!'` and `'?'` to `'.'` (used to state that `chunkText`
only depends on the partition induced by terminal punctuation). -/
def normalizeTerm (text : List Char) : List Char :=
  text.map (fun c => if isTermChar c then '.' else c)

/-- Collapses each maximal run of terminal punctuation to a single
`'.'`; the flag records whether the previous character was terminal. -/
def collapseGo : List Char → Bool → List Char
  | [], _ => []
  | c :: cs, lastTerm =>
    if isTermChar c then
      if lastTerm then collapseGo cs true
      else '.' :: collapseGo cs true
    else c :: collapseGo cs false

def collapseTermRuns (text : List Char) : List Char :=
  collapseGo text false

/-! ## The document store (`src/utils/vectorSearch.ts`)

The module-level array `documentStore` is passed and returned
explicitly. -/

inductive DocType where
  | document
  | youtube
deriving DecidableEq, Repr

structure DocMetadata where
  source : String
  type : DocType
  title : Option String := none
  timestamp : Option Nat := none
deriving DecidableEq, Repr

structure DocumentChunk where
  id : String
  content : List Char
  embedding : List ℚ
  metadata : DocMetadata
deriving DecidableEq, Repr

/-- `addDocument(content, metadata)`: chunk with `chunkText(content, 1000)`,
embed each chunk (`createEmbedding` is an external capability, passed as
`embedF`; `Date.now()` is passed as `now`), and append one record per
chunk with id `` `${metadata.source}-${i}` ``.  Returns the new store and
the status message. -/
def addDocument (embedF : List Char → List ℚ) (now : Nat)
    (content : List Char) (md : DocMetadata) (store : List DocumentChunk) :
    List DocumentChunk × String :=
  let chunks := chunkText content 1000
  (store ++ chunks.enum.map (fun p =>
      { id := md.source ++ "-" ++ toString p.1
        content := p.2
        embedding := embedF p.2
        metadata := { md with timestamp := some now } }),
    "Added " ++ toString chunks.length ++ " chunks from " ++ md.source)

/-- The stable descending comparator of `searchSimilarDocuments`:
JavaScript's stable `sort((a, b) => b.similarity - a.similarity)` places
`d1` no later than `d2` exactly when `sim d2 ≤ sim d1`; similarities are
compared through the order-faithful rational key `simKey`
(see `simKey_le_iff`). -/
def simDescLE (qe : List ℚ) (d1 d2 : DocumentChunk) : Bool :=
  decide (simKey qe d2.embedding ≤ simKey qe d1.embedding)

/-- `searchSimilarDocuments(query, topK)`: empty store short-circuits to
`[]`; otherwise every record is scored against the query embedding `qe`
(the external `createEmbedding(query)` result), the scored array is
stably sorted descending, and the first `topK` records are returned. -/
def searchSimilarDocuments (store : List DocumentChunk) (qe : List ℚ)
    (topK : Nat) : List DocumentChunk :=
  if store.isEmpty then []
  else (store.mergeSort (simDescLE qe)).take topK

/-- `searchSimilarDocuments` in state-passing form: the function reads
`documentStore`, maps it into a fresh `similarities` array, sorts that
fresh array (in place — but it is fresh) and returns projected copies of
the references; it never writes `documentStore` or any stored record, so
the state component is returned as received. -/
def searchSimilarDocumentsSt (store : List DocumentChunk) (qe : List ℚ)
    (topK : Nat) : List DocumentChunk × List DocumentChunk :=
  (searchSimilarDocuments store qe topK, store)

/-- The store manipulation of the admin DELETE endpoint
(`src/app/api/admin/documents/[id]/route.ts` lines 22–40):
`findIndex` on id, 404/`false` when absent, otherwise `splice(i, 1)` and
success/`true`. -/
def deleteDocument (store : List DocumentChunk) (docId : String) :
    Bool × List DocumentChunk :=
  match store.findIdx? (fun d => d.id == docId) with
  | none => (false, store)
  | some i => (true, store.eraseIdx i)

/-! ## Audio download / transcription control flow (claim C8)

`src/app/api/youtube-whisper/route.ts` lines 256–272 and
`src/unnamed/part_007` (`fetchTranscript`, lines 226–251).  The file
system is the set of paths present; the two external calls (audio
download, Whisper transcription) are parameters ranging over their
possible outcomes. -/

structure FsState where
  files : List String
deriving DecidableEq

inductive ExtOutcome (α : Type) where
  | ok (val : α)
  | fail
deriving DecidableEq

def fsWrite (p : String) (fs : FsState) : FsState := ⟨p :: fs.files⟩

def fsUnlink (p : String) (fs : FsState) : FsState :=
  ⟨fs.files.filter (fun q => q != p)⟩

/-- `downloadYouTubeAudio`: on success the audio file exists at `path`
and the path is returned; on failure the function throws (`.fail`)
without having produced the file (the write happens only in the
stream-`end` handler that resolves the promise). -/
def downloadYouTubeAudio (outcome : ExtOutcome Unit) (path : String)
    (fs : FsState) : ExtOutcome String × FsState :=
  match outcome with
  | .ok _ => (.ok path, fsWrite path fs)
  | .fail => (.fail, fs)

/-- The single-video whisper route, lines 256–272: download, then
`try { transcribe } finally { unlink }`; a download failure propagates to
the outer catch before any file exists, and both transcription outcomes
pass through the `finally` that unlinks the audio file. -/
def whisperPostTranscribe (dl : ExtOutcome Unit) (tr : ExtOutcome (List Char))
    (path : String) (fs : FsState) : ExtOutcome (List Char) × FsState :=
  match downloadYouTubeAudio dl path fs with
  | (.fail, fs1) => (.fail, fs1)
  | (.ok p, fs1) =>
    match tr with
    | .ok t => (.ok t, fsUnlink p fs1)
    | .fail => (.fail, fsUnlink p fs1)

/-- `fetchTranscript` (channel batch, `src/unnamed/part_007` lines
226–251): same structure, but the catch converts failures to `null` and
the `finally` unlinks only when `audioPath` was assigned. -/
def fetchTranscript (dl : ExtOutcome Unit) (tr : ExtOutcome (List Char))
    (path : String) (fs : FsState) : Option (List Char) × FsState :=
  match downloadYouTubeAudio dl path fs with
  | (.fail, fs1) => (none, fs1)
  | (.ok p, fs1) =>
    match tr with
    | .ok t => (some t, fsUnlink p fs1)
    | .fail => (none, fsUnlink p fs1)

/-! ## Helper lemmas -/

lemma magSq_pair_zero : magSq [(0 : ℚ), 0] = 0 := by
  simp [magSq]

lemma mem_of_mem_search {store : List DocumentChunk} {qe : List ℚ} {k : Nat}
    {d : DocumentChunk} (hd : d ∈ searchSimilarDocuments store qe k) :
    d ∈ store := by
  unfold searchSimilarDocuments at hd
  by_cases h : store.isEmpty
  · simp [h] at hd
  · simp only [h, if_neg, Bool.false_eq_true, not_false_eq_true] at hd
    exact List.mem_mergeSort.mp (List.take_subset _ _ hd)

/-! ## Claim C2 — zero-magnitude vectors and NaN -/

/-- C2: the claim states that a degenerate (zero-magnitude) query or
stored vector must either raise a `DegenerateVectorError` or be ranked
with similarity `0`, never producing `NaN`.  The code has no guard: for
a zero-magnitude vector on either side, `cosineSimilarity` computes
`0 / 0`, i.e. `NaN` (`none` in the model), and this value is handed to
the ranking comparator.  The claim (and spec) state the intent; the code
violates it, so the claim is a code bug report.  This theorem evaluates
the embedded float semantics at the failing inputs: a zero query vector
against a unit stored vector and vice versa both yield `NaN`, not `0`
and not an error (the function is total and has no error channel). -/
theorem cosineSimilarityF_zero_magnitude_NaN :
    cosineSimilarityF [(0 : ℚ), 0] [1, 0] = none ∧
    cosineSimilarityF [(1 : ℚ), 0] [0, 0] = none ∧
    cosineSimilarityF [(0 : ℚ), 0] [1, 0] ≠ some 0 := by
  refine ⟨?_, ?_, ?_⟩
  · simp [cosineSimilarityF, magSq]
  · simp [cosineSimilarityF, magSq]
  · simp [cosineSimilarityF, magSq]

/-! ## Claim C3 — chunking the empty input -/

/-- C3 counterexample: the claim states that for empty input and any
`maxChunkSize > 0` the chunker returns the empty sequence.  `chunkText`
does not: `"".split(/[.!?]+/)` is `[""]`, the loop appends `'.'` to the
empty fragment, and the flush pushes `"."` — so `chunkText("", 1000)`
is `["."]`, not `[]`. -/
theorem chunkText_empty_counterexample :
    chunkText [] 1000 = [['.']] ∧ chunkText [] 1000 ≠ [] := by
  constructor
  · rfl
  · decide

/-- C3 amended: on empty input `createSemanticChunks` (which filters out
blank sentences) returns the empty sequence, but `chunkText` returns the
single chunk `"."` — for every `maxChunkSize`, not just positive ones,
since the guard `0 + 0 > maxLength` never fires. -/
theorem chunk_empty_input_behavior :
    (∀ maxLen : Nat, chunkText [] maxLen = [['.']]) ∧
    createSemanticChunks [] = [] := by
  constructor
  · intro maxLen
    show chunkLoop maxLen [[]] [] = [['.']]
    simp [chunkLoop, trim, trimLeft, trimRight, isWsChar]
  · rfl

/-! ## Claim C8 — guaranteed audio cleanup -/

/-- C8: in both AI-transcription code paths (the single-video whisper
route and the channel batch `fetchTranscript`), the downloaded audio file
is deleted on every execution path after the download: transcription
success and transcription failure both pass through the `finally` block
that unlinks the file, and a download failure propagates before any file
exists.  Hence, starting from a file system that does not already contain
the audio path, the path is absent after the operation regardless of both
external outcomes. -/
theorem audio_file_cleanup (dl : ExtOutcome Unit) (tr : ExtOutcome (List Char))
    (path : String) (fs : FsState) (h : path ∉ fs.files) :
    path ∉ (whisperPostTranscribe dl tr path fs).2.files ∧
    path ∉ (fetchTranscript dl tr path fs).2.files := by
  cases dl <;> cases tr <;>
    simp_all [whisperPostTranscribe, fetchTranscript, downloadYouTubeAudio,
      fsWrite, fsUnlink, List.mem_filter]

theorem audio_file_cleanup_witness :
    "a.mp4" ∉ (whisperPostTranscribe (.ok ()) .fail "a.mp4" ⟨["x"]⟩).2.files ∧
    "a.mp4" ∉ (fetchTranscript (.ok ()) .fail "a.mp4" ⟨["x"]⟩).2.files :=
  audio_file_cleanup (.ok ()) .fail "a.mp4" ⟨["x"]⟩ (by simp)

/-! ## Claim C9 — queries do not modify the store -/

/-- C9: `searchSimilarDocuments` reads `documentStore`, builds a fresh
scored array, sorts that fresh array and returns (references to) stored
records; it never writes the store or any record.  In the state-passing
embedding: the state component is returned exactly as received — same
records, same contents, same order — and every returned record is one of
the stored records. -/
theorem search_leaves_store_unchanged (store : List DocumentChunk)
    (qe : List ℚ) (k : Nat) :
    (searchSimilarDocumentsSt store qe k).2 = store ∧
    ∀ d ∈ (searchSimilarDocumentsSt store qe k).1, d ∈ store := by
  refine ⟨rfl, ?_⟩
  intro d hd
  exact mem_of_mem_search hd

theorem search_leaves_store_unchanged_witness :
    (searchSimilarDocumentsSt [] [1] 3).2 = [] ∧
    ∀ d ∈ (searchSimilarDocumentsSt [] [1] 3).1, d ∈ ([] : List DocumentChunk) :=
  search_leaves_store_unchanged [] [1] 3

/-! ## Trim and split helper lemmas -/

lemma mem_trimLeft {x : Char} {l : List Char} (h : x ∈ trimLeft l) : x ∈ l :=
  (List.dropWhile_sublist isWsChar).subset h

lemma mem_trimRight {x : Char} {l : List Char} (h : x ∈ trimRight l) : x ∈ l := by
  unfold trimRight at h
  rw [List.mem_reverse] at h
  exact List.mem_reverse.mp ((List.dropWhile_sublist isWsChar).subset h)

lemma mem_trim {x : Char} {l : List Char} (h : x ∈ trim l) : x ∈ l :=
  mem_trimRight (mem_trimLeft h)

lemma length_trim_le (l : List Char) : (trim l).length ≤ l.length := by
  calc (trim l).length ≤ (trimRight l).length :=
        (List.dropWhile_sublist isWsChar).length_le
    _ ≤ l.length := by
        unfold trimRight
        rw [List.length_reverse]
        calc (l.reverse.dropWhile isWsChar).length ≤ l.reverse.length :=
              (List.dropWhile_sublist isWsChar).length_le
          _ = l.length := List.length_reverse l

lemma mem_dropLast_dropWhile {x : Char} {p : Char → Bool} :
    ∀ {l : List Char}, x ∈ (l.dropWhile p).dropLast → x ∈ l.dropLast := by
  intro l
  induction l with
  | nil => simp
  | cons c cs ih =>
    intro h
    by_cases hc : p c
    · rw [List.dropWhile_cons_of_pos hc] at h
      have h2 := ih h
      cases cs with
      | nil => simp at h2
      | cons y ys =>
        rw [List.dropLast_cons₂]
        exact List.mem_cons_of_mem c h2
    · rwa [List.dropWhile_cons_of_neg hc] at h

lemma mem_tail_dropWhile {x : Char} {p : Char → Bool} :
    ∀ {l : List Char}, x ∈ (l.dropWhile p).tail → x ∈ l.tail := by
  intro l
  induction l with
  | nil => simp
  | cons c cs ih =>
    intro h
    by_cases hc : p c
    · rw [List.dropWhile_cons_of_pos hc] at h
      exact List.mem_of_mem_tail (ih h)
    · rwa [List.dropWhile_cons_of_neg hc] at h

lemma dropLast_reverse_mem {x : Char} {u : List Char}
    (h : x ∈ (u.reverse).dropLast) : x ∈ u.tail := by
  have h2 : u.tail = (u.reverse).dropLast.reverse := by
    have h3 := List.tail_reverse u.reverse
    rw [List.reverse_reverse] at h3
    exact h3
  rw [h2, List.mem_reverse]
  exact h

lemma mem_dropLast_trimRight {x : Char} {l : List Char}
    (h : x ∈ (trimRight l).dropLast) : x ∈ l.dropLast := by
  unfold trimRight at h
  have h1 : x ∈ (l.reverse.dropWhile isWsChar).tail := dropLast_reverse_mem h
  have h2 : x ∈ l.reverse.tail := mem_tail_dropWhile h1
  rw [List.tail_reverse, List.mem_reverse] at h2
  exact h2

lemma mem_dropLast_trim {x : Char} {l : List Char}
    (h : x ∈ (trim l).dropLast) : x ∈ l.dropLast :=
  mem_dropLast_trimRight (mem_dropLast_dropWhile h)

lemma splitTermGo_no_term :
    ∀ (t acc : List Char) (b : Bool),
    (∀ c ∈ acc, isTermChar c = false) →
    ∀ s ∈ splitTermGo t acc b, ∀ c ∈ s, isTermChar c = false := by
  intro t
  induction t with
  | nil =>
    intro acc b hacc s hs c hcs
    simp only [splitTermGo, List.mem_singleton] at hs
    subst hs
    exact hacc c (List.mem_reverse.mp hcs)
  | cons x xs ih =>
    intro acc b hacc s hs c hcs
    by_cases hx : isTermChar x
    · rw [splitTermGo, if_pos hx] at hs
      cases b with
      | true => exact ih acc true hacc s hs c hcs
      | false =>
        simp only [Bool.false_eq_true, if_neg, ite_false, List.mem_cons] at hs
        rcases hs with hs | hs
        · subst hs
          exact hacc c (List.mem_reverse.mp hcs)
        · exact ih [] true (by simp) s hs c hcs
    · rw [splitTermGo, if_neg hx] at hs
      refine ih (x :: acc) false ?_ s hs c hcs
      intro y hy
      rcases List.mem_cons.mp hy with hy | hy
      · subst hy
        exact Bool.eq_false_iff.mpr hx
      · exact hacc y hy

lemma splitTerm_no_term {text : List Char} :
    ∀ s ∈ splitTerm text, ∀ c ∈ s, isTermChar c = false :=
  splitTermGo_no_term text [] false (by simp)

lemma mem_getOverlapText {x : Char} {t : List Char} {n : Nat}
    (h : x ∈ getOverlapText t n) : x ∈ t := by
  unfold getOverlapText at h
  split at h
  · exact h
  · dsimp only at h
    split at h
    · split at h
      · exact List.drop_subset _ _ (List.drop_subset _ _ h)
      · exact List.drop_subset _ _ h
    · exact List.drop_subset _ _ h

/-! ## Claim C4 — minimum chunk length -/

/-- C4 counterexample: the claim states that no chunk returned by the
chunking pipeline — hence no chunk stored for retrieval — is shorter
than 50 characters.  The document-ingestion path (`addDocument`, which
chunks with `chunkText`) applies no minimum-length filter at all:
ingesting `"Hello world."` stores the single 13-character chunk
`"Hello world.."`. -/
theorem short_chunk_stored_counterexample :
    (chunkText (String.toList "Hello world.") 1000).map List.length = [13] ∧
    ((addDocument (fun _ => [1]) 0 (String.toList "Hello world.")
        ⟨"src", DocType.document, none, none⟩ []).1.map
      (fun d => d.content.length)) = [13] ∧ (13 : Nat) < 50 := by
  refine ⟨by decide, by decide, by norm_num⟩

/-- C4 amended: only `createSemanticChunks` applies a minimum-length
post-filter, and it keeps chunks of length strictly greater than 50 (so
none of its output is shorter than 50 characters); the
`chunkText`/`addDocument` path has no such filter and can store chunks
shorter than 50 characters (see the counterexample). -/
theorem createSemanticChunks_min_length (text : List Char) :
    ∀ c ∈ createSemanticChunks text, 50 < c.length := by
  intro c hc
  unfold createSemanticChunks createSemanticChunksP createSemanticChunksRaw at hc
  have h := List.mem_filter.mp hc
  simpa using h.2

theorem createSemanticChunks_min_length_witness :
    50 < (List.replicate 60 'a').length :=
  createSemanticChunks_min_length (List.replicate 60 'a') (List.replicate 60 'a')
    (by decide)

/-! ## Claim C5 — chunk size bound -/

/-- Invariant of the `chunkText` loop: every emitted chunk either fits in
`maxLength + 1` characters (the appended `'.'` allows a one-character
overshoot of the budget) or contains no terminal punctuation before its
last character. -/
lemma chunkLoop_size_bound (maxLen : Nat) :
    ∀ (ss : List (List Char)) (cc : List Char),
    (∀ s ∈ ss, ∀ c ∈ s, isTermChar c = false) →
    (cc.length ≤ maxLen + 1 ∨ ∀ c ∈ cc.dropLast, isTermChar c = false) →
    ∀ ch ∈ chunkLoop maxLen ss cc,
      ch.length ≤ maxLen + 1 ∨ ∀ c ∈ ch.dropLast, isTermChar c = false := by
  have emitOk : ∀ (cc : List Char),
      (cc.length ≤ maxLen + 1 ∨ ∀ c ∈ cc.dropLast, isTermChar c = false) →
      (trim cc).length ≤ maxLen + 1 ∨ ∀ c ∈ (trim cc).dropLast, isTermChar c = false := by
    intro cc hcc
    rcases hcc with hcc | hcc
    · exact Or.inl (le_trans (length_trim_le cc) hcc)
    · exact Or.inr (fun c hc => hcc c (mem_dropLast_trim hc))
  intro ss
  induction ss with
  | nil =>
    intro cc hss hcc ch hch
    rw [chunkLoop] at hch
    split at hch
    · simp at hch
    · rcases List.mem_singleton.mp hch with h
      subst h
      exact emitOk cc hcc
  | cons s rest ih =>
    intro cc hss hcc ch hch
    have hs : ∀ c ∈ s, isTermChar c = false := hss s (List.mem_cons_self s rest)
    have hrest : ∀ s' ∈ rest, ∀ c ∈ s', isTermChar c = false :=
      fun s' hs' => hss s' (List.mem_cons_of_mem s hs')
    rw [chunkLoop] at hch
    split at hch
    · -- over budget: push `trim cc` (if nonempty), restart buffer as `s`
      have hsInv : s.length ≤ maxLen + 1 ∨ ∀ c ∈ s.dropLast, isTermChar c = false :=
        Or.inr (fun c hc => hs c (List.dropLast_sublist s |>.subset hc))
      split at hch
      · exact ih s hrest hsInv ch hch
      · rcases List.mem_cons.mp hch with h | h
        · subst h
          exact emitOk cc hcc
        · exact ih s hrest hsInv ch h
    · -- within budget: append `s ++ ['.']`
      rename_i hb
      refine ih (cc ++ s ++ ['.']) hrest ?_ ch hch
      left
      have hb' : cc.length + s.length ≤ maxLen := Nat.le_of_not_lt hb
      simp only [List.length_append, List.length_singleton]
      omega

/-- Invariant of the `createSemanticChunks` loop: no chunk ever contains
terminal punctuation at all (the sentence splitter removes every `.`,
`!`, `?`, and the loop only joins the remaining fragments with spaces and
overlap suffixes). -/
lemma scChunkLoop_no_term (maxC ov : Nat) :
    ∀ (ss : List (List Char)) (cc : List Char),
    (∀ s ∈ ss, ∀ c ∈ s, isTermChar c = false) →
    (∀ c ∈ cc, isTermChar c = false) →
    ∀ ch ∈ scChunkLoop maxC ov ss cc, ∀ c ∈ ch, isTermChar c = false := by
  intro ss
  induction ss with
  | nil =>
    intro cc hss hcc ch hch
    rw [scChunkLoop] at hch
    split at hch
    · simp at hch
    · rcases List.mem_singleton.mp hch with h
      subst h
      exact fun c hc => hcc c (mem_trim hc)
  | cons s rest ih =>
    intro cc hss hcc ch hch
    have hs : ∀ c ∈ s, isTermChar c = false := hss s (List.mem_cons_self s rest)
    have hrest : ∀ s' ∈ rest, ∀ c ∈ s', isTermChar c = false :=
      fun s' hs' => hss s' (List.mem_cons_of_mem s hs')
    have htrims : ∀ c ∈ trim s, isTermChar c = false :=
      fun c hc => hs c (mem_trim hc)
    have hsws : ∀ c ∈ (' ' :: trim s), isTermChar c = false := by
      intro c hc
      rcases List.mem_cons.mp hc with h | h
      · subst h
        decide
      · exact htrims c h
    rw [scChunkLoop] at hch
    split at hch <;> split at hch
    · rename_i hE hG
      rw [hE] at hG
      simp at hG
    · refine ih (cc ++ trim s) hrest ?_ ch hch
      intro c hc
      rcases List.mem_append.mp hc with hc | hc
      · exact hcc c hc
      · exact htrims c hc
    · rcases List.mem_cons.mp hch with h | h
      · subst h
        exact fun c hc => hcc c (mem_trim hc)
      · refine ih (getOverlapText cc ov ++ (' ' :: trim s)) hrest ?_ ch h
        intro c hc
        rcases List.mem_append.mp hc with hc | hc
        · exact hcc c (mem_getOverlapText hc)
        · exact hsws c hc
    · refine ih (cc ++ (' ' :: trim s)) hrest ?_ ch hch
      intro c hc
      rcases List.mem_append.mp hc with hc | hc
      · exact hcc c hc
      · exact hsws c hc

/-- C5 counterexample: the claim bounds every chunk by `maxChunkSize`
unless it contains no internal sentence boundary.  With
`maxChunkSize = 5`, `chunkText("ab.cd.", 5)` produces the single chunk
`"ab.cd."` of length 6 — over the budget *and* containing an internal
sentence boundary (the `'.'` after `"ab"`): the loop guard tests the
length *before* appending `sentence + '.'`, so a chunk can reach
`maxChunkSize + 1`. -/
theorem chunk_size_bound_counterexample :
    chunkText (String.toList "ab.cd.") 5 = [String.toList "ab.cd."] ∧
    5 < (String.toList "ab.cd.").length ∧
    ((String.toList "ab.cd.").dropLast.any isTermChar = true) := by
  refine ⟨by decide, by decide, by decide⟩

/-- C5 amended: every `chunkText` chunk has length at most
`maxChunkSize + 1` (not `maxChunkSize`: the final `'.'` appended to a
fragment may overshoot by one) or contains no internal sentence
boundary; and every `createSemanticChunks` chunk contains no terminal
punctuation at all (its sentence splitter discards the terminators), so
it satisfies the no-internal-boundary disjunct outright. -/
theorem chunk_size_bound_amended :
    (∀ (text : List Char) (maxLen : Nat), ∀ ch ∈ chunkText text maxLen,
       ch.length ≤ maxLen + 1 ∨ ∀ c ∈ ch.dropLast, isTermChar c = false) ∧
    (∀ text : List Char, ∀ ch ∈ createSemanticChunks text, ∀ c ∈ ch,
       isTermChar c = false) := by
  constructor
  · intro text maxLen ch hch
    refine chunkLoop_size_bound maxLen (splitTerm text) [] splitTerm_no_term ?_ ch hch
    left
    simp
  · intro text ch hch c hc
    unfold createSemanticChunks createSemanticChunksP createSemanticChunksRaw at hch
    have hch' := List.mem_filter.mp hch
    refine scChunkLoop_no_term 1000 200 _ [] ?_ (by simp) ch hch'.1 c hc
    intro s hs
    exact splitTerm_no_term s (List.mem_filter.mp hs).1

theorem chunk_size_bound_amended_witness :
    (String.toList "ab.cd.").length ≤ 5 + 1 ∨
      ∀ c ∈ (String.toList "ab.cd.").dropLast, isTermChar c = false :=
  chunk_size_bound_amended.1 (String.toList "ab.cd.") 5 (String.toList "ab.cd.")
    (by decide)

/-! ## Claim C10 — period rewriting by `chunkText` -/

/-- `splitTermGo` is invariant under rewriting `'!'`/`'?'` to `'.'`:
the split only inspects membership in the delimiter class. -/
lemma splitTermGo_normalize :
    ∀ (t acc : List Char) (b : Bool),
    splitTermGo (normalizeTerm t) acc b = splitTermGo t acc b := by
  intro t
  induction t with
  | nil => intro acc b; rfl
  | cons c cs ih =>
    intro acc b
    have hn : normalizeTerm (c :: cs)
        = (if isTermChar c then '.' else c) :: normalizeTerm cs := rfl
    rw [hn]
    by_cases hc : isTermChar c
    · rw [if_pos hc]
      rw [splitTermGo, splitTermGo]
      rw [if_pos (show isTermChar '.' = true from rfl), if_pos hc]
      cases b
      · simp only [ih]
      · simp only [ih]
    · rw [if_neg hc]
      rw [splitTermGo, splitTermGo, if_neg hc, if_neg hc]
      exact ih (c :: acc) false

/-- `splitTermGo` is invariant under collapsing each delimiter run to a
single `'.'`, provided the run flags agree. -/
lemma splitTermGo_collapse :
    ∀ (t acc : List Char) (b : Bool),
    splitTermGo (collapseGo t b) acc b = splitTermGo t acc b := by
  intro t
  induction t with
  | nil => intro acc b; rfl
  | cons c cs ih =>
    intro acc b
    by_cases hc : isTermChar c
    · cases b
      · have hcol : collapseGo (c :: cs) false = '.' :: collapseGo cs true := by
          simp [collapseGo, hc]
        rw [hcol]
        rw [splitTermGo, splitTermGo]
        rw [if_pos (show isTermChar '.' = true from rfl), if_pos hc]
        simp only [ih]
      · have hcol : collapseGo (c :: cs) true = collapseGo cs true := by
          simp [collapseGo, hc]
        rw [hcol, ih]
        rw [splitTermGo, if_pos hc]
        simp
    · have hcol : collapseGo (c :: cs) b = c :: collapseGo cs false := by
        simp [collapseGo, hc]
      rw [hcol]
      rw [splitTermGo, splitTermGo, if_neg hc, if_neg hc]
      exact ih (c :: acc) false

/-- A punctuation-free input is a single sentence. -/
lemma splitTermGo_no_punct :
    ∀ (t acc : List Char) (b : Bool), (∀ c ∈ t, isTermChar c = false) →
    splitTermGo t acc b = [acc.reverse ++ t] := by
  intro t
  induction t with
  | nil => intro acc b _; simp [splitTermGo]
  | cons c cs ih =>
    intro acc b h
    have hc : isTermChar c = false := h c (List.mem_cons_self c cs)
    rw [splitTermGo, if_neg (by simp [hc])]
    rw [ih (c :: acc) false (fun x hx => h x (List.mem_cons_of_mem c hx))]
    simp

lemma trim_append_dot_ne_nil (text : List Char) : trim (text ++ ['.']) ≠ [] := by
  unfold trim trimRight trimLeft
  rw [List.reverse_append]
  rw [show (['.'] : List Char).reverse = ['.'] from rfl]
  rw [show (['.'] : List Char) ++ text.reverse = '.' :: text.reverse from rfl]
  rw [List.dropWhile_cons_of_neg (by decide)]
  rw [List.reverse_cons, List.reverse_reverse]
  rw [List.dropWhile_append]
  split
  · decide
  · simp

lemma dropWhile_eq_self_of_all {p : Char → Bool} :
    ∀ {l : List Char}, (∀ c ∈ l, p c = false) → l.dropWhile p = l
  | [], _ => rfl
  | c :: cs, h =>
    List.dropWhile_cons_of_neg (by simp [h c (List.mem_cons_self c cs)])

lemma trim_eq_self_of_no_ws {l : List Char}
    (h : ∀ c ∈ l, isWsChar c = false) : trim l = l := by
  have h2 : trimRight l = l := by
    unfold trimRight
    rw [dropWhile_eq_self_of_all (fun c hc => h c (List.mem_reverse.mp hc))]
    exact List.reverse_reverse l
  unfold trim trimLeft
  rw [h2]
  exact dropWhile_eq_self_of_all h

/-- A punctuation-free input that fits the budget comes back as the
single chunk `trim (text ++ ['.'])`. -/
lemma chunkText_no_punct_le (text : List Char) (maxLen : Nat)
    (hp : ∀ c ∈ text, isTermChar c = false) (hle : text.length ≤ maxLen) :
    chunkText text maxLen = [trim (text ++ ['.'])] := by
  show chunkLoop maxLen (splitTerm text) [] = _
  rw [splitTerm, splitTermGo_no_punct _ [] false hp]
  rw [show ([] : List Char).reverse ++ text = text from by simp]
  rw [chunkLoop]
  rw [if_neg (by simpa using Nat.not_lt.mpr hle)]
  rw [chunkLoop]
  rw [show ([] : List Char) ++ text ++ ['.'] = text ++ ['.'] from by simp]
  rw [if_neg (by simpa using trim_append_dot_ne_nil text)]

/-- A punctuation-free input longer than the budget comes back trimmed,
with no `'.'` appended. -/
lemma chunkText_no_punct_gt (text : List Char) (maxLen : Nat)
    (hp : ∀ c ∈ text, isTermChar c = false) (hlt : maxLen < text.length) :
    chunkText text maxLen = if (trim text).isEmpty then [] else [trim text] := by
  show chunkLoop maxLen (splitTerm text) [] = _
  rw [splitTerm, splitTermGo_no_punct _ [] false hp]
  rw [show ([] : List Char).reverse ++ text = text from by simp]
  rw [chunkLoop]
  rw [if_pos (by simpa using hlt)]
  rw [if_pos (by decide)]
  rw [chunkLoop]

/-- C10 counterexample: the claim asserts that an input with no terminal
punctuation gains a trailing `'.'` in its single chunk.  That only
happens when the input fits the budget: a punctuation-free input longer
than `maxChunkSize` (here 1001 characters against `addDocument`'s 1000)
takes the over-budget branch, which installs the sentence as the buffer
*without* appending `'.'`, so the single chunk is the input unchanged. -/
theorem chunkText_no_trailing_dot_counterexample :
    chunkText (List.replicate 1001 'a') 1000 = [List.replicate 1001 'a'] ∧
    (List.replicate 1001 'a').getLast? ≠ some '.' := by
  have hp : ∀ c ∈ List.replicate 1001 'a', isTermChar c = false := by
    intro c hc
    rw [List.eq_of_mem_replicate hc]
    decide
  have hws : ∀ c ∈ List.replicate 1001 'a', isWsChar c = false := by
    intro c hc
    rw [List.eq_of_mem_replicate hc]
    decide
  have htrim : trim (List.replicate 1001 'a') = List.replicate 1001 'a' :=
    trim_eq_self_of_no_ws hws
  constructor
  · rw [chunkText_no_punct_gt _ _ hp
      (by rw [List.length_replicate]; norm_num)]
    rw [htrim]
    rw [if_neg (by simp)]
  · intro h
    have hmem : '.' ∈ List.replicate 1001 'a' :=
      List.mem_of_mem_getLast? h
    have := List.eq_of_mem_replicate hmem
    simp at this

/-- C10 amended: `chunkText` depends on its input only through the
sentence partition: rewriting `'!'`/`'?'` to `'.'` or collapsing runs of
terminal punctuation leaves the output unchanged, and each accumulated
fragment has `'.'` appended — so a punctuation-free input that fits the
budget comes back as one chunk with a trailing `'.'` appended (hence
output chunks need not be substrings of the input), while a
punctuation-free input *longer* than the budget comes back trimmed but
without the appended `'.'`. -/
theorem chunkText_punctuation_behavior :
    (∀ (text : List Char) (maxLen : Nat),
       chunkText (normalizeTerm text) maxLen = chunkText text maxLen) ∧
    (∀ (text : List Char) (maxLen : Nat),
       chunkText (collapseTermRuns text) maxLen = chunkText text maxLen) ∧
    (∀ (text : List Char) (maxLen : Nat),
       (∀ c ∈ text, isTermChar c = false) → text.length ≤ maxLen →
       chunkText text maxLen = [trim (text ++ ['.'])]) ∧
    (∀ (text : List Char) (maxLen : Nat),
       (∀ c ∈ text, isTermChar c = false) → maxLen < text.length →
       chunkText text maxLen = if (trim text).isEmpty then [] else [trim text]) ∧
    chunkText (String.toList "Hello") 1000 = [String.toList "Hello."] ∧
    ¬ (String.toList "Hello." <:+: String.toList "Hello") := by
  refine ⟨?_, ?_, ?_, ?_, by decide, by decide⟩
  · intro text maxLen
    show chunkLoop maxLen (splitTerm (normalizeTerm text)) [] = _
    rw [splitTerm, splitTermGo_normalize]
    rfl
  · intro text maxLen
    show chunkLoop maxLen (splitTerm (collapseGo text false)) [] = _
    rw [splitTerm, splitTermGo_collapse]
    rfl
  · exact chunkText_no_punct_le
  · exact chunkText_no_punct_gt

theorem chunkText_punctuation_behavior_witness :
    chunkText (String.toList "Hi there") 1000
      = [trim (String.toList "Hi there" ++ ['.'])] :=
  chunkText_punctuation_behavior.2.2.1 (String.toList "Hi there") 1000
    (by decide) (by decide)

/-! ## Claim C7 — delete semantics -/

/-- A store holding two records with the same id `"vid-0"` (the code
never enforces id uniqueness: re-ingesting a source mints the same
`` `${source}-${i}` `` ids again). -/
def dupChunkA : DocumentChunk :=
  { id := "vid-0", content := String.toList "first copy"
    embedding := [1], metadata := { source := "vid", type := DocType.youtube } }

def dupChunkB : DocumentChunk :=
  { id := "vid-0", content := String.toList "second copy"
    embedding := [1], metadata := { source := "vid", type := DocType.youtube } }

lemma search_singleton (d : DocumentChunk) (qe : List ℚ) (k : Nat)
    (hk : k ≠ 0) : searchSimilarDocuments [d] qe k = [d] := by
  unfold searchSimilarDocuments
  rw [if_neg (by simp)]
  rw [List.mergeSort_singleton]
  cases k with
  | zero => exact absurd rfl hk
  | succ n => simp

/-- C7 counterexample: the claim asserts that after deleting an existing
id a subsequent query never returns a record with that id.  With two
records sharing id `"vid-0"`, the DELETE endpoint removes only the first
(`findIndex` + `splice(i, 1)`), and a subsequent query returns the
surviving record, which still bears the deleted id. -/
theorem delete_then_query_counterexample :
    deleteDocument [dupChunkA, dupChunkB] "vid-0" = (true, [dupChunkB]) ∧
    searchSimilarDocuments [dupChunkB] [1] 3 = [dupChunkB] ∧
    dupChunkB.id = "vid-0" :=
  ⟨rfl, search_singleton dupChunkB [1] 3 (by norm_num), rfl⟩

/-- C7 amended: `deleteDocument` removes exactly the first record whose
id matches, leaving every other record (and their order) unchanged;
deleting a non-existent id does not throw and returns `false` with the
store unchanged; and when *no remaining record* bears the id (in
particular when the deleted record was the only holder), a subsequent
query never returns a record with that id.  (With duplicate ids — which
insertion permits — the surviving duplicate can still be returned, see
the counterexample.) -/
theorem deleteDocument_spec :
    (∀ (pre : List DocumentChunk) (d : DocumentChunk)
       (post : List DocumentChunk) (docId : String),
       d.id = docId → (∀ e ∈ pre, e.id ≠ docId) →
       deleteDocument (pre ++ d :: post) docId = (true, pre ++ post)) ∧
    (∀ (store : List DocumentChunk) (docId : String),
       (∀ e ∈ store, e.id ≠ docId) →
       deleteDocument store docId = (false, store)) ∧
    (∀ (store : List DocumentChunk) (docId : String) (qe : List ℚ) (k : Nat),
       (∀ e ∈ store, e.id ≠ docId) →
       ∀ r ∈ searchSimilarDocuments store qe k, r.id ≠ docId) := by
  refine ⟨?_, ?_, ?_⟩
  · intro pre
    induction pre with
    | nil =>
      intro d post docId hd _
      unfold deleteDocument
      rw [List.nil_append, List.findIdx?_cons, if_pos (by simp [hd])]
      rfl
    | cons e pre ih =>
      intro d post docId hd hpre
      have he : (e.id == docId) = false := by
        simp only [beq_eq_false_iff_ne, ne_eq]
        exact hpre e (List.mem_cons_self e pre)
      have ihid := ih d post docId hd
        (fun x hx => hpre x (List.mem_cons_of_mem e hx))
      unfold deleteDocument at ihid ⊢
      rw [List.cons_append, List.findIdx?_cons, if_neg (by simp [he]),
        List.findIdx?_succ]
      cases hfi : List.findIdx? (fun d' => d'.id == docId) (pre ++ d :: post) with
      | none =>
        rw [hfi] at ihid
        simp at ihid
      | some i =>
        rw [hfi] at ihid
        simp only [Option.map_some']
        have h2 : (pre ++ d :: post).eraseIdx i = pre ++ post := by
          simpa using congrArg Prod.snd ihid
        simp [List.eraseIdx_cons_succ, h2]
  · intro store docId h
    unfold deleteDocument
    rw [List.findIdx?_eq_none_iff.mpr (by simpa using h)]
  · intro store docId qe k h r hr
    exact h r (mem_of_mem_search hr)

theorem deleteDocument_spec_witness :
    deleteDocument ([] ++ dupChunkA :: [dupChunkB]) "vid-0"
      = (true, [] ++ [dupChunkB]) :=
  deleteDocument_spec.1 [] dupChunkA [dupChunkB] "vid-0" rfl (by simp)

/-! ## Claim C1 — retrieval ranking -/

lemma simDescLE_trans (qe : List ℚ) : ∀ (a b c : DocumentChunk),
    simDescLE qe a b → simDescLE qe b c → simDescLE qe a c := by
  intro a b c hab hbc
  unfold simDescLE at *
  exact decide_eq_true
    (le_trans (of_decide_eq_true hbc) (of_decide_eq_true hab))

lemma simDescLE_total (qe : List ℚ) : ∀ (a b : DocumentChunk),
    simDescLE qe a b || simDescLE qe b a := by
  intro a b
  unfold simDescLE
  rcases le_total (simKey qe b.embedding) (simKey qe a.embedding) with h | h
  · simp [h]
  · simp [h]

/-- Strict version of the key/cosine bridge. -/
lemma simKey_lt_iff {q v w : List ℚ} (hq : magSq q ≠ 0)
    (hv : magSq v ≠ 0) (hw : magSq w ≠ 0) :
    (simKey q v < simKey q w ↔ cosineSimilarity q v < cosineSimilarity q w) := by
  rw [lt_iff_not_le, lt_iff_not_le]
  exact not_congr (simKey_le_iff hq hw hv)

lemma mergeSort_pair {α : Type} (a b : α) (le : α → α → Bool) :
    List.mergeSort [a, b] le = if le a b then [a, b] else [b, a] := by
  rw [List.mergeSort]
  simp [List.splitInTwo, List.splitAt_eq, List.merge]

/-- C1: for a non-degenerate query embedding over a store of
non-degenerate embeddings, `searchSimilarDocuments`
(1) returns `[]` on the empty index without error,
(2) returns at most `topK` records,
(3) returns records sorted in descending order of (real) cosine
    similarity to the query,
(4) breaks exact similarity ties by insertion order — any two stored
    records with equal cosine similarity appear in the full-retrieval
    result in their insertion order (stability of the sort), and
(5) in the spec's concrete scenario, for a two-record store holding `d1`
    and `d2` in either insertion order with
    `cos(q, v1) > cos(q, v2)`, a query with `topK = 2` returns `d1`'s
    chunk before `d2`'s. -/
theorem search_ranking_spec (store : List DocumentChunk) (qe : List ℚ)
    (k : Nat) (hq : magSq qe ≠ 0)
    (hst : ∀ d ∈ store, magSq d.embedding ≠ 0) :
    searchSimilarDocuments [] qe k = [] ∧
    (searchSimilarDocuments store qe k).length ≤ k ∧
    (searchSimilarDocuments store qe k).Pairwise
      (fun d1 d2 => cosineSimilarity qe d2.embedding
        ≤ cosineSimilarity qe d1.embedding) ∧
    (∀ d1 d2, List.Sublist [d1, d2] store →
       cosineSimilarity qe d1.embedding = cosineSimilarity qe d2.embedding →
       List.Sublist [d1, d2] (searchSimilarDocuments store qe store.length)) ∧
    (∀ d1 d2, store = [d1, d2] ∨ store = [d2, d1] →
       cosineSimilarity qe d2.embedding < cosineSimilarity qe d1.embedding →
       searchSimilarDocuments store qe 2 = [d1, d2]) := by
  refine ⟨rfl, ?_, ?_, ?_, ?_⟩
  · unfold searchSimilarDocuments
    split
    · simp
    · rw [List.length_take]
      exact Nat.min_le_left _ _
  · unfold searchSimilarDocuments
    split
    · simp
    · have hsorted := List.sorted_mergeSort
        (simDescLE_trans qe) (simDescLE_total qe) store
      have htake : ((store.mergeSort (simDescLE qe)).take k).Pairwise
          (fun a b => simDescLE qe a b) :=
        List.Pairwise.sublist (List.take_sublist k _) hsorted
      refine htake.imp_of_mem ?_
      intro d1 d2 h1 h2 h
      have m1 : d1 ∈ store :=
        List.mem_mergeSort.mp (List.take_subset _ _ h1)
      have m2 : d2 ∈ store :=
        List.mem_mergeSort.mp (List.take_subset _ _ h2)
      have hkey : simKey qe d2.embedding ≤ simKey qe d1.embedding :=
        of_decide_eq_true h
      exact (simKey_le_iff hq (hst d2 m2) (hst d1 m1)).mp hkey
  · intro d1 d2 hsub hcos
    have hne : ¬store.isEmpty := by
      cases store with
      | nil => simp at hsub
      | cons e es => simp
    have m1 : d1 ∈ store := hsub.subset (List.mem_cons_self d1 [d2])
    have m2 : d2 ∈ store := hsub.subset (by simp)
    have hle : simDescLE qe d1 d2 := by
      unfold simDescLE
      exact decide_eq_true
        ((simKey_le_iff hq (hst d2 m2) (hst d1 m1)).mpr (le_of_eq hcos.symm))
    have hpair := List.pair_sublist_mergeSort
      (simDescLE_trans qe) (simDescLE_total qe) hle hsub
    unfold searchSimilarDocuments
    rw [if_neg (by simpa using hne)]
    rw [show store.length = (store.mergeSort (simDescLE qe)).length from
      (List.length_mergeSort store).symm]
    rw [List.take_length]
    exact hpair
  · intro d1 d2 hstore hcos
    have m1 : d1 ∈ store := by
      rcases hstore with h | h <;> simp [h]
    have m2 : d2 ∈ store := by
      rcases hstore with h | h <;> simp [h]
    have hlt : simKey qe d2.embedding < simKey qe d1.embedding :=
      (simKey_lt_iff hq (hst d2 m2) (hst d1 m1)).mpr hcos
    have hle12 : simDescLE qe d1 d2 = true := by
      unfold simDescLE
      exact decide_eq_true hlt.le
    have hle21 : simDescLE qe d2 d1 = false := by
      unfold simDescLE
      exact decide_eq_false (not_le_of_lt hlt)
    rcases hstore with h | h <;> subst h
    · unfold searchSimilarDocuments
      rw [if_neg (by simp)]
      rw [mergeSort_pair, if_pos hle12]
      rfl
    · unfold searchSimilarDocuments
      rw [if_neg (by simp)]
      rw [mergeSort_pair, if_neg (by simp [hle21])]
      rfl

theorem search_ranking_spec_witness :
    (searchSimilarDocuments [] [(1 : ℚ), 0] 2 = []) ∧
    (searchSimilarDocuments [dupChunkB] [(1 : ℚ), 0] 2).length ≤ 2 ∧
    (searchSimilarDocuments [dupChunkB] [(1 : ℚ), 0] 2).Pairwise
      (fun d1 d2 => cosineSimilarity [(1 : ℚ), 0] d2.embedding
        ≤ cosineSimilarity [(1 : ℚ), 0] d1.embedding) ∧
    (∀ d1 d2, List.Sublist [d1, d2] [dupChunkB] →
       cosineSimilarity [(1 : ℚ), 0] d1.embedding
         = cosineSimilarity [(1 : ℚ), 0] d2.embedding →
       List.Sublist [d1, d2] (searchSimilarDocuments [dupChunkB] [(1 : ℚ), 0]
         ([dupChunkB] : List DocumentChunk).length)) ∧
    (∀ d1 d2, ([dupChunkB] : List DocumentChunk) = [d1, d2] ∨
        ([dupChunkB] : List DocumentChunk) = [d2, d1] →
       cosineSimilarity [(1 : ℚ), 0] d2.embedding
         < cosineSimilarity [(1 : ℚ), 0] d1.embedding →
       searchSimilarDocuments [dupChunkB] [(1 : ℚ), 0] 2 = [d1, d2]) :=
  search_ranking_spec [dupChunkB] [(1 : ℚ), 0] 2 (by norm_num [magSq])
    (by
      intro d hd
      rw [List.mem_singleton] at hd
      subst hd
      norm_num [magSq, dupChunkB])

/-! ## Claim C6 — overlap continuity: trim infrastructure -/

lemma dropWhile_eq_self_head {p : Char → Bool} {l : List Char}
    (h : l.dropWhile p = l) : ∀ c t, l = c :: t → p c = false := by
  intro c t hl
  subst hl
  by_cases hpc : p c = true
  · rw [List.dropWhile_cons_of_pos hpc] at h
    have hlen : (t.dropWhile p).length ≤ t.length :=
      (List.dropWhile_sublist p).length_le
    rw [h] at hlen
    simp at hlen
  · simpa using hpc

lemma trimRight_rev {l : List Char} (h : trimRight l = l) :
    l.reverse.dropWhile isWsChar = l.reverse := by
  have h2 := congrArg List.reverse h
  unfold trimRight at h2
  rwa [List.reverse_reverse] at h2

lemma trimRight_of_rev {l : List Char}
    (h : l.reverse.dropWhile isWsChar = l.reverse) : trimRight l = l := by
  unfold trimRight
  rw [h, List.reverse_reverse]

lemma trimRight_append {m : List Char} (hm : trimRight m = m) (hne : m ≠ [])
    (X : List Char) : trimRight (X ++ m) = X ++ m := by
  apply trimRight_of_rev
  rw [List.reverse_append, List.dropWhile_append, trimRight_rev hm]
  rw [if_neg (by simpa using hne)]

lemma trimRight_cons {m : List Char} (hm : trimRight m = m) (hne : m ≠ [])
    (x : Char) : trimRight (x :: m) = x :: m := by
  have h := trimRight_append hm hne [x]
  simpa using h

lemma dropWhile_idem {p : Char → Bool} (l : List Char) :
    (l.dropWhile p).dropWhile p = l.dropWhile p := by
  induction l with
  | nil => rfl
  | cons c cs ih =>
    by_cases hc : p c = true
    · rw [List.dropWhile_cons_of_pos hc]
      exact ih
    · rw [List.dropWhile_cons_of_neg hc, List.dropWhile_cons_of_neg hc]

lemma trimRight_idem (l : List Char) : trimRight (trimRight l) = trimRight l := by
  apply trimRight_of_rev
  unfold trimRight
  rw [List.reverse_reverse, dropWhile_idem]

lemma trimRight_eq_self_of_suffix {s m : List Char} (hm : trimRight m = m)
    (hs : s <:+ m) (hne : s ≠ []) : trimRight s = s := by
  obtain ⟨u, rfl⟩ := hs
  have hrev := trimRight_rev hm
  rw [List.reverse_append] at hrev
  cases hsr : s.reverse with
  | nil => exact absurd (by simpa using hsr) hne
  | cons c t =>
    rw [hsr, List.cons_append] at hrev
    have hc := dropWhile_eq_self_head hrev c (t ++ u.reverse) rfl
    apply trimRight_of_rev
    rw [hsr, List.dropWhile_cons_of_neg (by simp [hc])]

lemma trimLeft_suffix (l : List Char) : trimLeft l <:+ l :=
  List.dropWhile_suffix isWsChar

lemma trimLeft_ne_nil {m : List Char} (hm : trimRight m = m) (hne : m ≠ []) :
    trimLeft m ≠ [] := by
  intro h
  unfold trimLeft at h
  rw [List.dropWhile_eq_nil_iff] at h
  cases hmr : m.reverse with
  | nil => exact hne (by simpa using hmr)
  | cons c t =>
    have hc : isWsChar c = true := by
      refine h c ?_
      rw [← List.mem_reverse, hmr]
      exact List.mem_cons_self c t
    have hrev := trimRight_rev hm
    rw [hmr] at hrev
    have hcfalse := dropWhile_eq_self_head hrev c t rfl
    rw [hc] at hcfalse
    exact Bool.noConfusion hcfalse

lemma trimLeft_append {a : List Char} (ha : trimLeft a ≠ []) (b : List Char) :
    trimLeft (a ++ b) = trimLeft a ++ b := by
  unfold trimLeft at *
  rw [List.dropWhile_append, if_neg (by simpa using ha)]

lemma trimLeft_suffix_of_suffix {s m : List Char} (hs : s <:+ m) :
    trimLeft s <:+ trimLeft m := by
  obtain ⟨u, rfl⟩ := hs
  unfold trimLeft
  rw [List.dropWhile_append]
  split
  · exact List.suffix_refl _
  · exact (List.dropWhile_suffix isWsChar).trans
      (List.suffix_append (u.dropWhile isWsChar) s)

lemma trim_eq_trimLeft {cc : List Char} (htr : trimRight cc = cc) :
    trim cc = trimLeft cc := by
  unfold trim
  rw [htr]

lemma trimRight_trim (s : List Char) : trimRight (trim s) = trim s := by
  unfold trim
  by_cases h : trimLeft (trimRight s) = []
  · rw [h]
    rfl
  · exact trimRight_eq_self_of_suffix (trimRight_idem s) (trimLeft_suffix _) h

lemma dropWhile_aligned {p : Char → Bool} :
    ∀ (l : List Char), l.dropWhile p = l ∨
      ∃ w, p w = true ∧ (w :: l.dropWhile p) <:+ l := by
  intro l
  induction l with
  | nil => exact Or.inl rfl
  | cons c cs ih =>
    by_cases hc : p c = true
    · rw [List.dropWhile_cons_of_pos hc]
      rcases ih with ih | ih
      · right
        refine ⟨c, hc, ?_⟩
        rw [ih]
      · right
        obtain ⟨w, hw, hsuf⟩ := ih
        exact ⟨w, hw, hsuf.trans (List.suffix_cons c cs)⟩
    · rw [List.dropWhile_cons_of_neg hc]
      exact Or.inl rfl

lemma suffix_cons_tail {w : Char} {s l : List Char}
    (h : (w :: s) <:+ l) : s <:+ l.tail := by
  obtain ⟨u, hu⟩ := h
  cases u with
  | nil =>
    simp at hu
    rw [← hu]
    exact List.suffix_refl s
  | cons x u' =>
    rw [List.cons_append] at hu
    rw [← hu]
    exact ⟨u' ++ [w], by simp⟩

lemma lastSpaceIdx_none_spec {w : List Char} (h : lastSpaceIdx w = none) :
    ∀ c ∈ w, c ≠ ' ' := by
  unfold lastSpaceIdx at h
  cases hf : w.reverse.findIdx? (fun c => c == ' ') with
  | some j => rw [hf] at h; exact Option.noConfusion h
  | none =>
    intro c hc
    have h2 := List.findIdx?_eq_none_iff.mp hf c (List.mem_reverse.mpr hc)
    simpa using h2

lemma lastSpaceIdx_some_spec {w : List Char} {i : Nat}
    (h : lastSpaceIdx w = some i) :
    ∃ (hi : i < w.length), w[i] = ' ' ∧
      ∀ k (hk : k < w.length), i < k → w[k] ≠ ' ' := by
  unfold lastSpaceIdx at h
  cases hf : w.reverse.findIdx? (fun c => c == ' ') with
  | none => rw [hf] at h; exact Option.noConfusion h
  | some j =>
    rw [hf] at h
    obtain ⟨hj, hpj, hmin⟩ := List.findIdx?_eq_some_iff_getElem.mp hf
    have hjw : j < w.length := by simpa using hj
    have hieq : i = w.length - 1 - j := by
      injection h with h2
      omega
    have hi : i < w.length := by omega
    refine ⟨hi, ?_, ?_⟩
    · have hq := List.getElem?_reverse' (l := w) j i (by omega)
      rw [List.getElem?_eq_getElem hj, List.getElem?_eq_getElem hi] at hq
      have h2 := Option.some.inj hq
      rw [← h2]
      simpa using hpj
    · intro k hk hik
      have hk' : w.length - 1 - k < j := by omega
      have hjk : w.length - 1 - k < w.reverse.length := by
        simp only [List.length_reverse]
        omega
      have hm := hmin (w.length - 1 - k) hk'
      have hq := List.getElem?_reverse' (l := w) (w.length - 1 - k) k (by omega)
      rw [List.getElem?_eq_getElem hjk, List.getElem?_eq_getElem hk] at hq
      have h2 := Option.some.inj hq
      intro hcontra
      apply hm
      rw [h2]
      simpa using hcontra

lemma getElem_last_not_ws {l : List Char} (htr : trimRight l = l) (hne : l ≠ [])
    (hlt : l.length - 1 < l.length) : isWsChar (l[l.length - 1]) = false := by
  cases hlr : l.reverse with
  | nil => exact absurd (by simpa using hlr) hne
  | cons c t =>
    have hrev := trimRight_rev htr
    rw [hlr] at hrev
    have hc := dropWhile_eq_self_head hrev c t rfl
    have h0 : (0 : Nat) < l.reverse.length := by
      rw [hlr]
      simp
    have hlenpos : 0 < l.length := List.length_pos.mpr hne
    have hq := List.getElem?_reverse' (l := l) 0 (l.length - 1) (by omega)
    rw [List.getElem?_eq_getElem h0, List.getElem?_eq_getElem hlt] at hq
    have h2 := Option.some.inj hq
    have h3 : l.reverse.get ⟨0, h0⟩ = c := by
      simp [hlr]
    have h4 : l.reverse[0] = c := h3
    rw [h4] at h2
    rw [← h2]
    exact hc

lemma getOverlapText_spec (cc : List Char) (ov : Nat) (hov : 0 < ov)
    (hne : cc ≠ []) (htr : trimRight cc = cc) :
    getOverlapText cc ov ≠ [] ∧ getOverlapText cc ov <:+ cc ∧
      (getOverlapText cc ov = cc ∨
       (' ' :: getOverlapText cc ov) <:+ cc ∨
       (∀ c ∈ (getOverlapText cc ov).tail, c ≠ ' ')) := by
  unfold getOverlapText
  split
  · exact ⟨hne, List.suffix_refl cc, Or.inl rfl⟩
  · rename_i hlen
    dsimp only
    have hccpos : ov < cc.length := by omega
    have hwsuf : cc.drop (cc.length - ov) <:+ cc := List.drop_suffix _ _
    have hwlen : (cc.drop (cc.length - ov)).length = ov := by
      rw [List.length_drop]
      omega
    have hwne : cc.drop (cc.length - ov) ≠ [] := by
      intro h
      rw [h] at hwlen
      simp at hwlen
      omega
    have hwtr : trimRight (cc.drop (cc.length - ov)) = cc.drop (cc.length - ov) :=
      trimRight_eq_self_of_suffix htr hwsuf hwne
    cases hls : lastSpaceIdx (cc.drop (cc.length - ov)) with
    | none =>
      refine ⟨hwne, hwsuf, Or.inr (Or.inr ?_)⟩
      intro c hc
      exact lastSpaceIdx_none_spec hls c (List.mem_of_mem_tail hc)
    | some i =>
      obtain ⟨hi, hisp, hmax⟩ := lastSpaceIdx_some_spec hls
      dsimp only
      by_cases hipos : 0 < i
      · rw [if_pos hipos]
        have hdec : cc.drop (cc.length - ov)
            = (cc.drop (cc.length - ov)).take i
              ++ (' ' :: (cc.drop (cc.length - ov)).drop (i + 1)) := by
          conv_lhs => rw [← List.take_append_drop i (cc.drop (cc.length - ov))]
          rw [List.drop_eq_getElem_cons hi, hisp]
        refine ⟨?_, ?_, Or.inr (Or.inl ?_)⟩
        · intro hnil
          rw [List.drop_eq_nil_iff] at hnil
          have hieq : i = (cc.drop (cc.length - ov)).length - 1 := by omega
          subst hieq
          have hlast := getElem_last_not_ws hwtr hwne (by omega)
          rw [hisp] at hlast
          simp [isWsChar] at hlast
        · exact (List.drop_suffix _ _).trans hwsuf
        · refine (?_ : (' ' :: (cc.drop (cc.length - ov)).drop (i + 1))
            <:+ cc.drop (cc.length - ov)).trans hwsuf
          exact ⟨(cc.drop (cc.length - ov)).take i, hdec.symm⟩
      · rw [if_neg hipos]
        refine ⟨hwne, hwsuf, Or.inr (Or.inr ?_)⟩
        intro c hc
        obtain ⟨k, hk, hck⟩ := List.mem_iff_getElem.mp hc
        have hk1 : k + 1 < (cc.drop (cc.length - ov)).length := by
          have := List.length_tail (cc.drop (cc.length - ov))
          omega
        have hgt := List.getElem_tail (cc.drop (cc.length - ov)) k hk
        rw [hck] at hgt
        have hres := hmax (k + 1) hk1 (by omega)
        rw [← hgt] at hres
        exact hres

/-- `next` begins with a nonempty suffix of `c`; the suffix starts at a
word boundary (it is all of `c`, or is preceded in `c` by a whitespace
character) unless the overlap window contained no space, in which case it
is the raw truncated suffix, which contains no space. -/
def WordAlignedOverlap (c next : List Char) : Prop :=
  ∃ seed, seed ≠ [] ∧ seed <:+ c ∧ seed <+: next ∧
    (seed = c ∨ (∃ w, isWsChar w = true ∧ (w :: seed) <:+ c) ∨
      (∀ ch ∈ seed, ch ≠ ' '))

/-- Core single-step property: for a nonempty buffer with no trailing
whitespace, the left-trimmed overlap seed is a nonempty suffix of the
emitted chunk (`trimLeft cc`), and it is word-aligned or space-free. -/
lemma seedOk (cc : List Char) (ov : Nat) (hov : 0 < ov) (hne : cc ≠ [])
    (htr : trimRight cc = cc) :
    trimLeft (getOverlapText cc ov) ≠ [] ∧
    trimLeft (getOverlapText cc ov) <:+ trimLeft cc ∧
    (trimLeft (getOverlapText cc ov) = trimLeft cc ∨
     (∃ w, isWsChar w = true ∧
        (w :: trimLeft (getOverlapText cc ov)) <:+ trimLeft cc) ∨
     (∀ ch ∈ trimLeft (getOverlapText cc ov), ch ≠ ' ')) := by
  obtain ⟨hsne, hssuf, hcases⟩ := getOverlapText_spec cc ov hov hne htr
  have hstr : trimRight (getOverlapText cc ov) = getOverlapText cc ov :=
    trimRight_eq_self_of_suffix htr hssuf hsne
  have h1 : trimLeft (getOverlapText cc ov) ≠ [] := trimLeft_ne_nil hstr hsne
  have h2 : trimLeft (getOverlapText cc ov) <:+ trimLeft cc :=
    trimLeft_suffix_of_suffix hssuf
  refine ⟨h1, h2, ?_⟩
  have hccL : trimLeft cc <:+ cc := trimLeft_suffix cc
  rcases hcases with hcase | hcase | hcase
  · left
    rw [hcase]
  · -- the seed in the code is preceded by a space inside `cc`
    rcases dropWhile_aligned (p := isWsChar) (getOverlapText cc ov) with
      heq | ⟨w, hw, hsuf⟩
    · -- no whitespace was trimmed from the code seed
      have hsp : (' ' :: trimLeft (getOverlapText cc ov)) <:+ cc := by
        show (' ' :: (getOverlapText cc ov).dropWhile isWsChar) <:+ cc
        rw [heq]
        exact hcase
      rcases le_or_lt (' ' :: trimLeft (getOverlapText cc ov)).length
          (trimLeft cc).length with hl | hl
      · right
        left
        exact ⟨' ', by decide, List.suffix_of_suffix_length_le hsp hccL hl⟩
      · left
        refine h2.eq_of_length ?_
        have hle := h2.length_le
        simp only [List.length_cons] at hl
        omega
    · have hsp : (w :: trimLeft (getOverlapText cc ov)) <:+ cc :=
        hsuf.trans hssuf
      rcases le_or_lt (w :: trimLeft (getOverlapText cc ov)).length
          (trimLeft cc).length with hl | hl
      · right
        left
        exact ⟨w, hw, List.suffix_of_suffix_length_le hsp hccL hl⟩
      · left
        refine h2.eq_of_length ?_
        have hle := h2.length_le
        simp only [List.length_cons] at hl
        omega
  · -- raw window: no space strictly inside the window
    right
    right
    intro ch hch
    rcases dropWhile_aligned (p := isWsChar) (getOverlapText cc ov) with
      heq | ⟨w, hw, hsuf⟩
    · -- nothing trimmed: the head is non-whitespace, the rest is space-free
      have hch' : ch ∈ getOverlapText cc ov := by
        have : trimLeft (getOverlapText cc ov) = getOverlapText cc ov := heq
        rwa [this] at hch
      cases hsc : getOverlapText cc ov with
      | nil => rw [hsc] at hch'; simp at hch'
      | cons d t =>
        have hd : isWsChar d = false := by
          have heq2 : (d :: t).dropWhile isWsChar = d :: t := by
            rw [← hsc]
            exact heq
          exact dropWhile_eq_self_head heq2 d t rfl
        rw [hsc] at hch'
        rcases List.mem_cons.mp hch' with hh | hh
        · subst hh
          intro hsp
          rw [hsp] at hd
          simp [isWsChar] at hd
        · refine hcase ch ?_
          rw [hsc]
          exact hh
    · -- whitespace was trimmed: the seed sits inside the window's tail
      have htail : trimLeft (getOverlapText cc ov) <:+ (getOverlapText cc ov).tail :=
        suffix_cons_tail hsuf
      exact hcase ch (htail.subset hch)

/-- The first chunk that `scChunkLoop` emits from a nonempty,
right-trimmed buffer extends the left-trimmed buffer. -/
lemma scChunkLoop_head_prefix (maxC ov : Nat) :
    ∀ (ss : List (List Char)) (cc : List Char),
    cc ≠ [] → trimRight cc = cc → (∀ s ∈ ss, trim s ≠ []) →
    ∃ ext tl, scChunkLoop maxC ov ss cc = (trimLeft cc ++ ext) :: tl := by
  intro ss
  induction ss with
  | nil =>
    intro cc hne htr _
    have h1 : trim cc = trimLeft cc := trim_eq_trimLeft htr
    have h2 : trim cc ≠ [] := by
      rw [h1]
      exact trimLeft_ne_nil htr hne
    refine ⟨[], [], ?_⟩
    rw [scChunkLoop, if_neg (by simpa using h2), h1]
    simp
  | cons s rest ih =>
    intro cc hne htr hss
    have hts : trim s ≠ [] := hss s (List.mem_cons_self s rest)
    have hrest : ∀ s' ∈ rest, trim s' ≠ [] :=
      fun s' h => hss s' (List.mem_cons_of_mem s h)
    have hccE : cc.isEmpty = false := by
      cases cc
      · exact absurd rfl hne
      · rfl
    rw [scChunkLoop]
    simp only [hccE, Bool.false_eq_true, if_false, Bool.not_false, Bool.and_true]
    by_cases hguard : maxC < cc.length + (' ' :: trim s).length
    · rw [if_pos (decide_eq_true hguard)]
      refine ⟨[], scChunkLoop maxC ov rest (getOverlapText cc ov ++ ' ' :: trim s), ?_⟩
      rw [trim_eq_trimLeft htr]
      simp
    · rw [if_neg (by simpa using hguard)]
      have htrS : trimRight (' ' :: trim s) = ' ' :: trim s :=
        trimRight_cons (trimRight_trim s) hts ' '
      have htr' : trimRight (cc ++ ' ' :: trim s) = cc ++ ' ' :: trim s :=
        trimRight_append htrS (by simp) cc
      obtain ⟨ext, tl, hrec⟩ := ih (cc ++ ' ' :: trim s) (by simp) htr' hrest
      refine ⟨(' ' :: trim s) ++ ext, tl, ?_⟩
      rw [hrec, trimLeft_append (trimLeft_ne_nil htr hne) (' ' :: trim s)]
      simp

/-- Adjacent chunks emitted by `scChunkLoop` satisfy the word-aligned
overlap property: every chunk after the first begins with the
left-trimmed overlap seed of the buffer that produced its predecessor. -/
lemma scChunkLoop_chain (maxC ov : Nat) (hov : 0 < ov) :
    ∀ (ss : List (List Char)) (cc : List Char),
    (∀ s ∈ ss, trim s ≠ []) →
    (cc = [] ∨ (cc ≠ [] ∧ trimRight cc = cc)) →
    (scChunkLoop maxC ov ss cc).Chain' WordAlignedOverlap := by
  intro ss
  induction ss with
  | nil =>
    intro cc _ _
    rw [scChunkLoop]
    split
    · exact List.chain'_nil
    · exact List.chain'_singleton _
  | cons s rest ih =>
    intro cc hss hcc
    have hts : trim s ≠ [] := hss s (List.mem_cons_self s rest)
    have hrest : ∀ s' ∈ rest, trim s' ≠ [] :=
      fun s' h => hss s' (List.mem_cons_of_mem s h)
    have htrS : trimRight (trim s) = trim s := trimRight_trim s
    rcases hcc with hcc | ⟨hne, htr⟩
    · subst hcc
      rw [scChunkLoop]
      simp only [List.isEmpty_nil, if_true, Bool.not_true, Bool.and_false,
        Bool.false_eq_true, if_false, List.nil_append, List.length_nil]
      exact ih (trim s) hrest (Or.inr ⟨hts, htrS⟩)
    · have hccE : cc.isEmpty = false := by
        cases cc
        · exact absurd rfl hne
        · rfl
      rw [scChunkLoop]
      simp only [hccE, Bool.false_eq_true, if_false, Bool.not_false, Bool.and_true]
      have htrSp : trimRight (' ' :: trim s) = ' ' :: trim s :=
        trimRight_cons htrS hts ' '
      by_cases hguard : maxC < cc.length + (' ' :: trim s).length
      · rw [if_pos (decide_eq_true hguard)]
        have hsne : getOverlapText cc ov ≠ [] :=
          (getOverlapText_spec cc ov hov hne htr).1
        have htr'' : trimRight (getOverlapText cc ov ++ ' ' :: trim s)
            = getOverlapText cc ov ++ ' ' :: trim s :=
          trimRight_append htrSp (by simp) _
        have hne'' : getOverlapText cc ov ++ ' ' :: trim s ≠ [] := by simp
        rw [List.chain'_cons']
        constructor
        · intro b hb
          cases hrecE : scChunkLoop maxC ov rest
              (getOverlapText cc ov ++ ' ' :: trim s) with
          | nil =>
            rw [hrecE] at hb
            simp at hb
          | cons hd tl2 =>
            rw [hrecE] at hb
            simp only [List.head?_cons, Option.mem_some_iff] at hb
            subst hb
            obtain ⟨ext, tl3, hhead⟩ :=
              scChunkLoop_head_prefix maxC ov rest _ hne'' htr'' hrest
            rw [hrecE] at hhead
            obtain ⟨hhd, -⟩ := List.cons.inj hhead
            obtain ⟨hseedne, hseedsuf, hseedalign⟩ := seedOk cc ov hov hne htr
            refine ⟨trimLeft (getOverlapText cc ov), hseedne, ?_, ?_, ?_⟩
            · rw [trim_eq_trimLeft htr]
              exact hseedsuf
            · rw [hhd, trimLeft_append hseedne]
              exact (List.prefix_append _ _).trans
                ⟨ext, rfl⟩
            · rw [trim_eq_trimLeft htr]
              exact hseedalign
        · exact ih _ hrest (Or.inr ⟨hne'', htr''⟩)
      · rw [if_neg (by simpa using hguard)]
        have htr' : trimRight (cc ++ ' ' :: trim s) = cc ++ ' ' :: trim s :=
          trimRight_append htrSp (by simp) cc
        exact ih _ hrest (Or.inr ⟨by simp, htr'⟩)

/-- The overlap seed exactly as the claim's sentence describes it: the
last `overlap` characters of the chunk, cut forward to the character
after the last space in that window (or the raw window when it has no
space).  Unlike the code's `getOverlapText`, this has no short-text case:
the claim omits the `text.length <= overlapSize` early return. -/
def claimSeed (c : List Char) (ov : Nat) : List Char :=
  let w := c.drop (c.length - ov)
  match lastSpaceIdx w with
  | some i => w.drop (i + 1)
  | none => w

/-- `"aaaa" ++ " " ++ 55 b's ++ "." ++ 941 c's`: two sentences, the first
60 characters long (shorter than the 200-character overlap window), the
second long enough to close the first chunk. -/
def c6text : List Char :=
  String.toList "aaaa " ++ List.replicate 55 'b' ++ ['.'] ++ List.replicate 941 'c'

def c6chunk0 : List Char := String.toList "aaaa " ++ List.replicate 55 'b'

def c6chunk1 : List Char := c6chunk0 ++ [' '] ++ List.replicate 941 'c'

/-- C6 counterexample: the claim describes the seed as "the last
`overlap` characters of `c[i]` trimmed forward to the character after
the last space in that window".  For a chunk shorter than the overlap
window this is wrong: `getOverlapText` short-circuits and seeds with the
*whole* chunk, so the next chunk begins with all of `c[i]`, not with its
last word.  Here `c[0] = "aaaa bb…b"` (60 chars), the claim's seed is the
55 `b`s, but `c[1]` begins with `"aaaa …"` — the claimed seed is not a
prefix of `c[1]`. -/
theorem overlap_seed_counterexample :
    createSemanticChunks c6text = [c6chunk0, c6chunk1] ∧
    ¬ (claimSeed c6chunk0 200 <+: c6chunk1) := by
  constructor
  · set_option maxRecDepth 10000 in decide
  · set_option maxRecDepth 10000 in decide

/-- C6 amended: for every input, adjacent chunks of the *raw* chunk
sequence (before the 50-character filter) satisfy the word-aligned
overlap property: the later chunk begins with a nonempty suffix of the
earlier one, and that suffix is the whole earlier chunk (when the buffer
fits the overlap window), or starts right after a whitespace character,
or is the raw truncated window suffix containing no space; consequently
the output of `createSemanticChunks` satisfies the same property
whenever the minimum-length filter drops nothing ("sentence lengths
permitting"). -/
theorem overlap_continuity_amended :
    (∀ text : List Char,
       (createSemanticChunksRaw 1000 200 text).Chain' WordAlignedOverlap) ∧
    (∀ text : List Char,
       createSemanticChunks text = createSemanticChunksRaw 1000 200 text →
       (createSemanticChunks text).Chain' WordAlignedOverlap) := by
  have hmain : ∀ text : List Char,
      (createSemanticChunksRaw 1000 200 text).Chain' WordAlignedOverlap := by
    intro text
    unfold createSemanticChunksRaw
    refine scChunkLoop_chain 1000 200 (by norm_num) _ [] ?_ (Or.inl rfl)
    intro s hs
    have h := (List.mem_filter.mp hs).2
    simpa using h
  refine ⟨hmain, ?_⟩
  intro text h
  rw [h]
  exact hmain text

theorem overlap_continuity_amended_witness :
    (createSemanticChunks (List.replicate 60 'a')).Chain' WordAlignedOverlap :=
  overlap_continuity_amended.2 (List.replicate 60 'a') (by decide)
